import Mathlib

/-!
Verification development for the esa-wiki RAG pipeline
(`esa_connector.py`, `main_fastapi.py`).

Text is modelled as `List Char` (Python `str`).  Each `re.sub` call of
`clean_markdown` is embedded as a recursive scan with the exact
left-to-right, non-overlapping match semantics of `re.sub`; Python's
`\s` class is modelled by its ASCII subset (the only whitespace the
corpus-processing code distinguishes).
-/

/-- ASCII part of Python's regex class `\s` (and of `str.strip`):
space, tab, newline, carriage return, vertical tab, form feed. -/
def isSpace (c : Char) : Bool :=
  c == ' ' || c == '\t' || c == '\n' || c == '\r' || c == '\x0b' || c == '\x0c'

/-- Python `str.strip()`: drop leading and trailing whitespace. -/
def pyStrip (l : List Char) : List Char :=
  ((l.dropWhile (fun c => isSpace c)).reverse.dropWhile (fun c => isSpace c)).reverse

/-! ### `clean_markdown`, substitution 1: `re.sub(r"#{1,6}\s?", "", text)`

At a `#`, the greedy `#{1,6}` consumes up to six `#` characters and
`\s?` consumes one following whitespace character if present. -/

/-- The optional `\s?` at the end of the heading pattern. -/
def dropOptSpace : List Char → List Char
  | [] => []
  | c :: r => if isSpace c then r else c :: r

/-- Consume up to `k` further `#` characters, then the optional space.
Called with `k = 5` after the first `#` of a match (six total). -/
def hashTail : Nat → List Char → List Char
  | 0, l => dropOptSpace l
  | _ + 1, [] => dropOptSpace []
  | k + 1, c :: r => if c = '#' then hashTail k r else dropOptSpace (c :: r)

theorem dropOptSpace_length (l : List Char) : (dropOptSpace l).length ≤ l.length := by
  cases l with
  | nil => simp [dropOptSpace]
  | cons c r =>
    simp only [dropOptSpace]
    split <;> simp

theorem hashTail_length (k : Nat) (l : List Char) : (hashTail k l).length ≤ l.length := by
  induction k generalizing l with
  | zero => exact dropOptSpace_length l
  | succ k ih =>
    cases l with
    | nil => simp [hashTail, dropOptSpace]
    | cons c r =>
      simp only [hashTail]
      split
      · exact Nat.le_succ_of_le (ih r)
      · exact dropOptSpace_length _

/-- `re.sub(r"#{1,6}\s?", "", text)`: every `#` starts a match (the
trailing `\s?` is optional), so the scan removes each maximal heading
marker group. -/
def sub1 : List Char → List Char
  | [] => []
  | c :: r =>
    if c = '#' then sub1 (hashTail 5 r) else c :: sub1 r
termination_by l => l.length
decreasing_by
  · have := hashTail_length 5 r
    simp only [List.length_cons]
    omega
  · simp only [List.length_cons]
    omega

/-! ### Substitution 2: `re.sub(r"\[.*?\]\(.*?\)", "", text)`

Lazy quantifiers with backtracking; `.` does not match a newline. -/

/-- Having matched `\[.*?\]\(`, match `.*?\)`: lazily scan to the first
`)` on the same line. -/
def afterClose : List Char → Option (List Char)
  | [] => none
  | c :: r =>
    if c = ')' then some r
    else if c = '\n' then none
    else afterClose r

/-- Having matched `\[`, match `.*?\]\(.*?\)` with backtracking: at each
`]` on the same line, try `\(.*?\)`; on failure the lazy `.*?` extends
past that `]` and the scan continues. -/
def afterOpen : List Char → Option (List Char)
  | [] => none
  | c :: r =>
    if c = '\n' then none
    else if c = ']' then
      if r.head? = some '(' then
        match afterClose r.tail with
        | some out => some out
        | none => afterOpen r
      else afterOpen r
    else afterOpen r

theorem afterClose_length {l r : List Char} (h : afterClose l = some r) :
    r.length < l.length := by
  induction l with
  | nil => simp [afterClose] at h
  | cons c t ih =>
    simp only [afterClose] at h
    split at h
    · cases h
      simp
    · split at h
      · cases h
      · exact Nat.lt_succ_of_lt (ih h)

theorem afterClose_mem {l r : List Char} (h : afterClose l = some r) :
    ∀ x ∈ r, x ∈ l := by
  induction l with
  | nil => simp [afterClose] at h
  | cons c t ih =>
    simp only [afterClose] at h
    split at h
    · cases h
      intro x hx
      exact List.mem_cons_of_mem _ hx
    · split at h
      · cases h
      · intro x hx
        exact List.mem_cons_of_mem _ (ih h x hx)

theorem afterOpen_length {l r : List Char} (h : afterOpen l = some r) :
    r.length < l.length := by
  induction l with
  | nil => simp [afterOpen] at h
  | cons c t ih =>
    simp only [afterOpen] at h
    split at h
    · cases h
    · split at h
      · split at h
        · split at h
          · next out hout =>
            cases h
            have h1 := afterClose_length hout
            have h2 := List.length_tail t
            simp only [List.length_cons]
            omega
          · exact Nat.lt_succ_of_lt (ih h)
        · exact Nat.lt_succ_of_lt (ih h)
      · exact Nat.lt_succ_of_lt (ih h)

theorem tail_mem {t : List Char} {x : Char} (hx : x ∈ t.tail) : x ∈ t := by
  cases t with
  | nil => simp at hx
  | cons a t2 => exact List.mem_cons_of_mem _ hx

theorem afterOpen_mem {l r : List Char} (h : afterOpen l = some r) :
    ∀ x ∈ r, x ∈ l := by
  induction l with
  | nil => simp [afterOpen] at h
  | cons c t ih =>
    simp only [afterOpen] at h
    split at h
    · cases h
    · split at h
      · split at h
        · split at h
          · next out hout =>
            cases h
            intro x hx
            exact List.mem_cons_of_mem _ (tail_mem (afterClose_mem hout x hx))
          · intro x hx
            exact List.mem_cons_of_mem _ (ih h x hx)
        · intro x hx
          exact List.mem_cons_of_mem _ (ih h x hx)
      · intro x hx
        exact List.mem_cons_of_mem _ (ih h x hx)

/-- `re.sub(r"\[.*?\]\(.*?\)", "", text)`: at each `[`, attempt the link
match; on success the match is deleted and scanning resumes after it,
otherwise the `[` is kept and scanning resumes at the next character. -/
def sub2 : List Char → List Char
  | [] => []
  | c :: rest =>
    if c = '[' then
      match h : afterOpen rest with
      | some r => sub2 r
      | none => c :: sub2 rest
    else c :: sub2 rest
termination_by l => l.length
decreasing_by
  · have := afterOpen_length h
    simp only [List.length_cons]
    omega
  · simp only [List.length_cons]
    omega
  · simp only [List.length_cons]
    omega

/-! ### Substitution 3: `re.sub(r"(\*\*|__|~~|\*|_|`)", "", text)`

The alternation is tried in order at each position: `**`, `__`, `~~`,
then single `*`, `_`, backtick.  A lone `~` matches nothing and is kept. -/

def sub3 : List Char → List Char
  | [] => []
  | c :: r =>
    if (c = '*' ∧ r.head? = some '*') ∨ (c = '_' ∧ r.head? = some '_') ∨
        (c = '~' ∧ r.head? = some '~') then
      sub3 r.tail
    else if c = '*' ∨ c = '_' ∨ c = '`' then sub3 r
    else c :: sub3 r
termination_by l => l.length
decreasing_by
  all_goals
    have h1 := List.length_tail r
    simp only [List.length_cons]
    omega

/-! ### Substitution 4: `re.sub(r"^\s*[-*+]\s", "", text, flags=re.MULTILINE)`

`^` anchors at the string start and after every newline of the original
text.  `\s*` is greedy; since none of `-`, `*`, `+` is whitespace, a
match places the bullet at the first non-whitespace character after the
anchor, followed by one more whitespace character. -/

def isBullet (c : Char) : Bool := c == '-' || c == '*' || c == '+'

/-- Attempt to match `\s*[-*+]\s` at a line start.  On success, return
the last consumed character (the trailing `\s`, which determines whether
the resumption point is again a line start) and the remaining text. -/
def tryBullet (l : List Char) : Option (Char × List Char) :=
  match l.dropWhile (fun c => isSpace c) with
  | b :: s :: r => if isBullet b && isSpace s then some (s, r) else none
  | _ => none

theorem tryBullet_length {l : List Char} {ch : Char} {rest : List Char}
    (h : tryBullet l = some (ch, rest)) : rest.length + 2 ≤ l.length := by
  unfold tryBullet at h
  split at h
  · next b s r heq =>
    split at h
    · cases h
      have h1 : (l.dropWhile (fun c => isSpace c)).length ≤ l.length :=
        (List.dropWhile_suffix _).sublist.length_le
      rw [heq] at h1
      simp only [List.length_cons] at h1
      omega
    · cases h
  · cases h

theorem tryBullet_mem {l : List Char} {ch : Char} {rest : List Char}
    (h : tryBullet l = some (ch, rest)) : ∀ x ∈ rest, x ∈ l := by
  unfold tryBullet at h
  split at h
  · next b s r heq =>
    split at h
    · cases h
      intro x hx
      have hsub : l.dropWhile (fun c => isSpace c) <:+ l := List.dropWhile_suffix _
      exact hsub.subset (heq ▸ List.mem_cons_of_mem _ (List.mem_cons_of_mem _ hx))
    · cases h
  · cases h

/-- One multiline pass of the bullet-list substitution; the flag records
whether the current position is a line start (position 0 or just after a
newline in the original text). -/
def sub4Aux : Bool → List Char → List Char
  | _, [] => []
  | atStart, c :: r =>
    if atStart then
      match h : tryBullet (c :: r) with
      | some (ch, rest) => sub4Aux (ch == '\n') rest
      | none => c :: sub4Aux (c == '\n') r
    else c :: sub4Aux (c == '\n') r
termination_by _ l => l.length
decreasing_by
  · have := tryBullet_length h
    simp only [List.length_cons] at this ⊢
    omega
  · simp only [List.length_cons]
    omega
  · simp only [List.length_cons]
    omega

def sub4 (l : List Char) : List Char := sub4Aux true l

/-! ### Substitution 5: `re.sub(r"\n{2,}", "\n", text)`

Each maximal run of two or more newlines is replaced by a single
newline; a lone newline is emitted unchanged, which gives the same
result as matching only runs of length at least two. -/

def sub5 : List Char → List Char
  | [] => []
  | c :: r =>
    if c = '\n' then '\n' :: sub5 (r.dropWhile (fun x => x == '\n'))
    else c :: sub5 r
termination_by l => l.length
decreasing_by
  · have : (r.dropWhile (fun x => x == '\n')).length ≤ r.length :=
      (List.dropWhile_suffix _).sublist.length_le
    simp only [List.length_cons]
    omega
  · simp only [List.length_cons]
    omega

/-- `clean_markdown` from `esa_connector.py`: the five `re.sub` passes
followed by `str.strip()`. -/
def clean_markdown (l : List Char) : List Char :=
  pyStrip (sub5 (sub4 (sub3 (sub2 (sub1 l)))))

/-! ### Character-level facts about the `clean_markdown` passes -/

theorem sub1_no_hash (l : List Char) : '#' ∉ sub1 l := by
  induction l using sub1.induct with
  | case1 => simp [sub1]
  | case2 r ih => simpa [sub1] using ih
  | case3 c r hc ih =>
    simp only [sub1, if_neg hc, List.mem_cons, not_or]
    exact ⟨fun he => hc he.symm, ih⟩

/-- Unfolding equation for `sub2` at a successful link match. -/
theorem sub2_open_some {rest r1 : List Char} (hr : afterOpen rest = some r1) :
    sub2 ('[' :: rest) = sub2 r1 := by
  rw [sub2]
  split
  · split
    · next r2 heq =>
      rw [hr] at heq
      cases heq
      rfl
    · next heq =>
      rw [hr] at heq
      cases heq
  · next hneg => exact absurd rfl hneg

/-- Unfolding equation for `sub2` at a failed link match. -/
theorem sub2_open_none {rest : List Char} (hr : afterOpen rest = none) :
    sub2 ('[' :: rest) = '[' :: sub2 rest := by
  rw [sub2]
  split
  · split
    · next r2 heq =>
      rw [hr] at heq
      cases heq
    · rfl
  · next hneg => exact absurd rfl hneg

/-- Unfolding equation for `sub2` away from `[`. -/
theorem sub2_cons_ne {c : Char} {rest : List Char} (hc : ¬c = '[') :
    sub2 (c :: rest) = c :: sub2 rest := by
  rw [sub2, if_neg hc]

theorem sub2_mem (x : Char) : ∀ (l : List Char), x ∈ sub2 l → x ∈ l := by
  intro l
  induction l using sub2.induct with
  | case1 => simp [sub2]
  | case2 r r1 hr ih =>
    intro hx
    rw [sub2_open_some hr] at hx
    exact List.mem_cons_of_mem _ (afterOpen_mem hr x (ih hx))
  | case3 r hr ih =>
    intro hx
    rw [sub2_open_none hr] at hx
    rcases List.mem_cons.mp hx with hx | hx
    · simp [hx]
    · exact List.mem_cons_of_mem _ (ih hx)
  | case4 c r hc ih =>
    intro hx
    rw [sub2_cons_ne hc] at hx
    rcases List.mem_cons.mp hx with hx | hx
    · simp [hx]
    · exact List.mem_cons_of_mem _ (ih hx)

theorem sub3_mem (x : Char) : ∀ (l : List Char), x ∈ sub3 l → x ∈ l := by
  intro l
  induction l using sub3.induct with
  | case1 => simp [sub3]
  | case2 c r hc ih =>
    intro hx
    rw [sub3, if_pos hc] at hx
    exact List.mem_cons_of_mem _ (List.mem_of_mem_tail (ih hx))
  | case3 c r hc1 hc2 ih =>
    intro hx
    rw [sub3, if_neg hc1, if_pos hc2] at hx
    exact List.mem_cons_of_mem _ (ih hx)
  | case4 c r hc1 hc2 ih =>
    intro hx
    rw [sub3, if_neg hc1, if_neg hc2] at hx
    rcases List.mem_cons.mp hx with hx | hx
    · simp [hx]
    · exact List.mem_cons_of_mem _ (ih hx)

theorem sub3_no_special (x : Char) :
    ∀ (l : List Char), x ∈ sub3 l → ¬(x = '*' ∨ x = '_' ∨ x = '`') := by
  intro l
  induction l using sub3.induct with
  | case1 => simp [sub3]
  | case2 c r hc ih =>
    intro hx
    rw [sub3, if_pos hc] at hx
    exact ih hx
  | case3 c r hc1 hc2 ih =>
    intro hx
    rw [sub3, if_neg hc1, if_pos hc2] at hx
    exact ih hx
  | case4 c r hc1 hc2 ih =>
    intro hx
    rw [sub3, if_neg hc1, if_neg hc2] at hx
    rcases List.mem_cons.mp hx with hx | hx
    · subst hx
      exact hc2
    · exact ih hx

/-- Unfolding equation for `sub4Aux` at a line start with a bullet match. -/
theorem sub4Aux_true_some {c ch : Char} {r rest : List Char}
    (htb : tryBullet (c :: r) = some (ch, rest)) :
    sub4Aux true (c :: r) = sub4Aux (ch == '\n') rest := by
  rw [sub4Aux]
  split
  · split
    · next ch2 rest2 heq =>
      rw [htb] at heq
      cases heq
      rfl
    · next heq =>
      rw [htb] at heq
      cases heq
  · next hneg => exact absurd rfl hneg

/-- Unfolding equation for `sub4Aux` at a line start without a bullet match. -/
theorem sub4Aux_true_none {c : Char} {r : List Char} (htb : tryBullet (c :: r) = none) :
    sub4Aux true (c :: r) = c :: sub4Aux (c == '\n') r := by
  rw [sub4Aux]
  split
  · split
    · next ch2 rest2 heq =>
      rw [htb] at heq
      cases heq
    · rfl
  · next hneg => exact absurd rfl hneg

/-- Unfolding equation for `sub4Aux` away from a line start. -/
theorem sub4Aux_false {c : Char} {r : List Char} :
    sub4Aux false (c :: r) = c :: sub4Aux (c == '\n') r := by
  rw [sub4Aux]
  split
  · next htrue => exact absurd htrue (by decide)
  · rfl

theorem sub4Aux_mem (x : Char) : ∀ (b : Bool) (l : List Char), x ∈ sub4Aux b l → x ∈ l := by
  intro b l
  induction b, l using sub4Aux.induct with
  | case1 b => simp [sub4Aux]
  | case2 c r ch rest htb ih =>
    intro hx
    rw [sub4Aux_true_some htb] at hx
    exact tryBullet_mem htb x (ih hx)
  | case3 c r htb ih =>
    intro hx
    rw [sub4Aux_true_none htb] at hx
    rcases List.mem_cons.mp hx with hx | hx
    · simp [hx]
    · exact List.mem_cons_of_mem _ (ih hx)
  | case4 atStart c r hb ih =>
    intro hx
    have hb2 : atStart = false := by
      cases atStart
      · rfl
      · exact absurd rfl hb
    rw [hb2, sub4Aux_false] at hx
    rcases List.mem_cons.mp hx with hx | hx
    · simp [hx]
    · exact List.mem_cons_of_mem _ (ih hx)

/-- Unfolding equation for `sub5` at a newline. -/
theorem sub5_cons_nl {r : List Char} :
    sub5 ('\n' :: r) = '\n' :: sub5 (r.dropWhile (fun x => x == '\n')) := by
  rw [sub5]
  split
  · rfl
  · next hneg => exact absurd rfl hneg

/-- Unfolding equation for `sub5` away from a newline. -/
theorem sub5_cons_ne {c : Char} {r : List Char} (hc : ¬c = '\n') :
    sub5 (c :: r) = c :: sub5 r := by
  rw [sub5, if_neg hc]

theorem sub5_mem (x : Char) : ∀ (l : List Char), x ∈ sub5 l → x ∈ l := by
  intro l
  induction l using sub5.induct with
  | case1 => simp [sub5]
  | case2 r ih =>
    intro hx
    rw [sub5_cons_nl] at hx
    rcases List.mem_cons.mp hx with hx | hx
    · simp [hx]
    · exact List.mem_cons_of_mem _
        ((List.dropWhile_suffix _).sublist.subset (ih hx))
  | case3 c r hc ih =>
    intro hx
    rw [sub5_cons_ne hc] at hx
    rcases List.mem_cons.mp hx with hx | hx
    · simp [hx]
    · exact List.mem_cons_of_mem _ (ih hx)

theorem pyStrip_mem (x : Char) (l : List Char) (hx : x ∈ pyStrip l) : x ∈ l := by
  unfold pyStrip at hx
  rw [List.mem_reverse] at hx
  have h1 := (List.dropWhile_suffix (fun c => isSpace c)).sublist.subset hx
  rw [List.mem_reverse] at h1
  exact (List.dropWhile_suffix (fun c => isSpace c)).sublist.subset h1

/-- Any character of `clean_markdown`'s output survives from the output
of the third substitution pass (passes 4, 5 and `strip` only delete). -/
theorem clean_markdown_mem (x : Char) (l : List Char) (hx : x ∈ clean_markdown l) :
    x ∈ sub3 (sub2 (sub1 l)) := by
  unfold clean_markdown at hx
  exact sub4Aux_mem x _ _ (sub5_mem x _ (pyStrip_mem x _ hx))

/-! ### Claims about `clean_markdown` (C8, C10) -/

/-- Claim C10: for every input string, the output of `clean_markdown`
contains no asterisk, underscore, or backtick character at all — the
third substitution removes these characters globally, not only as paired
emphasis delimiters (so an underscore inside an identifier such as
snake_case is removed as well), and the later passes only delete
characters. -/
theorem clean_markdown_no_emphasis_chars (l : List Char) :
    '*' ∉ clean_markdown l ∧ '_' ∉ clean_markdown l ∧ '`' ∉ clean_markdown l := by
  refine ⟨fun hx => ?_, fun hx => ?_, fun hx => ?_⟩
  · exact sub3_no_special _ _ (clean_markdown_mem _ _ hx) (Or.inl rfl)
  · exact sub3_no_special _ _ (clean_markdown_mem _ _ hx) (Or.inr (Or.inl rfl))
  · exact sub3_no_special _ _ (clean_markdown_mem _ _ hx) (Or.inr (Or.inr rfl))

/-- Claim C8, counterexample: `clean_markdown` is not idempotent.  On
the input `[a]*(b)` the first pass deletes the `*` (producing `[a](b)`,
which also still contains markdown link syntax), and a second pass then
deletes the newly-formed link, so applying the function twice differs
from applying it once. -/
theorem clean_markdown_not_idempotent :
    clean_markdown (clean_markdown ['[', 'a', ']', '*', '(', 'b', ')']) ≠
      clean_markdown ['[', 'a', ']', '*', '(', 'b', ')'] := by
  simp [clean_markdown, sub1, sub3, sub5, pyStrip, afterOpen,
    afterClose, tryBullet, hashTail, dropOptSpace, isSpace, isBullet,
    List.dropWhile_nil, List.dropWhile_cons, sub2_open_some, sub2_open_none,
    sub2_cons_ne, sub2, sub4, sub4Aux_true_some, sub4Aux_true_none, sub4Aux_false,
    sub4Aux]

/-- Claim C8, amended: for every input, the output of `clean_markdown`
contains no heading marker `#` and none of the emphasis/code-span
delimiter characters `*`, `_`, backtick.  (The original claim's
idempotence and absence of link syntax fail: deleting emphasis
characters can form a fresh markdown link, as the counterexample
shows.) -/
theorem clean_markdown_no_marker_chars (l : List Char) :
    '#' ∉ clean_markdown l ∧ '*' ∉ clean_markdown l ∧
      '_' ∉ clean_markdown l ∧ '`' ∉ clean_markdown l := by
  refine ⟨fun hx => ?_, fun hx => ?_, fun hx => ?_, fun hx => ?_⟩
  · exact sub1_no_hash l (sub2_mem _ _ (sub3_mem _ _ (clean_markdown_mem _ _ hx)))
  · exact sub3_no_special _ _ (clean_markdown_mem _ _ hx) (Or.inl rfl)
  · exact sub3_no_special _ _ (clean_markdown_mem _ _ hx) (Or.inr (Or.inl rfl))
  · exact sub3_no_special _ _ (clean_markdown_mem _ _ hx) (Or.inr (Or.inr rfl))

/-! ### `simple_text_splitter` from `esa_connector.py`

`for i in range(0, len(text), chunk_size): chunks.append(text[i : i + chunk_size])`.
An empty text yields no chunks before the loop; a zero `chunk_size` on a
non-empty text makes `range` raise `ValueError`, modelled as `none`. -/

/-- The slicing loop: emit `text[i : i + n]` for `i = 0, n, 2n, ...`. -/
def splitChunks (l : List Char) (n : Nat) : List (List Char) :=
  if h : l = [] ∨ n = 0 then [] else l.take n :: splitChunks (l.drop n) n
termination_by l.length
decreasing_by
  push_neg at h
  rw [List.length_drop]
  exact Nat.sub_lt (List.length_pos.mpr h.1) (Nat.pos_of_ne_zero h.2)

/-- `simple_text_splitter(text, chunk_size)`; `none` models the
`ValueError` raised by `range(0, len(text), 0)`. -/
def simple_text_splitter (l : List Char) (n : Nat) : Option (List (List Char)) :=
  if l = [] then some []
  else if n = 0 then none
  else some (splitChunks l n)

theorem splitChunks_flatten (l : List Char) (n : Nat) :
    0 < n → (splitChunks l n).flatten = l := by
  induction l, n using splitChunks.induct with
  | case1 l n h =>
    intro hn
    rw [splitChunks, dif_pos h]
    rcases h with h | h
    · simp [h]
    · omega
  | case2 l n h ih =>
    intro hn
    rw [splitChunks, dif_neg h]
    rw [List.flatten_cons, ih hn]
    exact List.take_append_drop n l

theorem splitChunks_length_le (l : List Char) (n : Nat) :
    ∀ c ∈ splitChunks l n, c.length ≤ n := by
  induction l, n using splitChunks.induct with
  | case1 l n h =>
    rw [splitChunks, dif_pos h]
    simp
  | case2 l n h ih =>
    rw [splitChunks, dif_neg h]
    intro c hc
    rcases List.mem_cons.mp hc with hc | hc
    · subst hc
      exact List.length_take_le n l
    · exact ih c hc

/-- Claim C2: for every text and chunk size n > 0, the splitter
succeeds, the chunks concatenate (in order) back to the input, every
chunk has length at most n, and the empty text yields no chunks. -/
theorem simple_text_splitter_spec (l : List Char) (n : Nat) (hn : 0 < n) :
    ∃ cs, simple_text_splitter l n = some cs ∧ cs.flatten = l ∧
      (∀ c ∈ cs, c.length ≤ n) ∧ (l = [] → cs = []) := by
  by_cases hl : l = []
  · exact ⟨[], by simp [simple_text_splitter, hl], by simp [hl], by simp, fun _ => rfl⟩
  · refine ⟨splitChunks l n, ?_, splitChunks_flatten l n hn, splitChunks_length_le l n,
      fun hc => absurd hc hl⟩
    have hn2 : ¬n = 0 := by omega
    simp [simple_text_splitter, hl, hn2]

/-- Witness for claim C2 at the concrete text "abcde" with chunk size 2. -/
theorem simple_text_splitter_spec_witness :
    ∃ cs, simple_text_splitter ['a', 'b', 'c', 'd', 'e'] 2 = some cs ∧
      cs.flatten = ['a', 'b', 'c', 'd', 'e'] ∧ (∀ c ∈ cs, c.length ≤ 2) ∧
      (['a', 'b', 'c', 'd', 'e'] = ([] : List Char) → cs = []) :=
  simple_text_splitter_spec ['a', 'b', 'c', 'd', 'e'] 2 (by decide)

/-! ### Answer extraction in `generate_answer` (`main_fastapi.py`)

`answer_start = generated_text.rfind("[/INST]")`; when found, the answer
is `generated_text[answer_start + len("[/INST]"):].strip()`, otherwise
the whole generated text.  The surrounding try/except can never fire:
every step is total. -/

/-- The instruction end-marker `[/INST]`. -/
def endMarker : List Char := ['[', '/', 'I', 'N', 'S', 'T', ']']

/-- Python `str.rfind`: try candidate start positions from high to low;
the first slice equal to the pattern gives the highest match index. -/
def rfindDown (l pat : List Char) : Nat → Option Nat
  | 0 => none
  | k + 1 => if (l.drop k).take pat.length = pat then some k else rfindDown l pat k

def py_rfind (l pat : List Char) : Option Nat := rfindDown l pat (l.length + 1)

/-- The extraction step of `generate_answer`. -/
def extract_answer (g : List Char) : List Char :=
  match py_rfind g endMarker with
  | some i => pyStrip (g.drop (i + endMarker.length))
  | none => g

/-- Position `i` carries an occurrence of the end-marker in `g`. -/
abbrev markerAt (g : List Char) (i : Nat) : Prop :=
  (g.drop i).take endMarker.length = endMarker

theorem rfindDown_none {l pat : List Char} {n : Nat} (h : rfindDown l pat n = none) :
    ∀ k, k < n → ¬((l.drop k).take pat.length = pat) := by
  induction n with
  | zero =>
    intro k hk
    omega
  | succ m ih =>
    rw [rfindDown] at h
    split at h
    · cases h
    · next hneg =>
      intro k hk
      rcases Nat.lt_succ_iff_lt_or_eq.mp hk with hk | hk
      · exact ih h k hk
      · subst hk
        exact hneg

theorem rfindDown_some {l pat : List Char} {n i : Nat} (h : rfindDown l pat n = some i) :
    i < n ∧ (l.drop i).take pat.length = pat ∧
      ∀ k, i < k → k < n → ¬((l.drop k).take pat.length = pat) := by
  induction n with
  | zero =>
    rw [rfindDown] at h
    cases h
  | succ m ih =>
    rw [rfindDown] at h
    split at h
    · next hpos =>
      cases h
      exact ⟨Nat.lt_succ_self _, hpos, fun k hk1 hk2 => absurd hk1 (by omega)⟩
    · next hneg =>
      obtain ⟨h1, h2, h3⟩ := ih h
      refine ⟨Nat.lt_succ_of_lt h1, h2, fun k hk1 hk2 => ?_⟩
      rcases Nat.lt_succ_iff_lt_or_eq.mp hk2 with hk2 | hk2
      · exact h3 k hk1 hk2
      · subst hk2
        exact hneg

theorem markerAt_le {g : List Char} {i : Nat} (h : markerAt g i) :
    i + endMarker.length ≤ g.length := by
  have hl := congrArg List.length h
  rw [List.length_take, List.length_drop] at hl
  have h7 : endMarker.length = 7 := rfl
  omega

/-- Claim C3: the extraction step returns the substring after the last
occurrence of the end-marker, stripped of surrounding whitespace, and
returns the generated text unmodified when the marker is absent; it is a
total function (the defensive try/except in the source is dead code). -/
theorem extract_answer_spec (g : List Char) :
    ((∀ i, i ≤ g.length → ¬markerAt g i) → extract_answer g = g) ∧
    (∀ i, markerAt g i → (∀ j, j ≤ g.length → markerAt g j → j ≤ i) →
      extract_answer g = pyStrip (g.drop (i + endMarker.length))) := by
  constructor
  · intro hno
    cases h : py_rfind g endMarker with
    | none =>
      unfold extract_answer
      rw [h]
    | some j =>
      unfold py_rfind at h
      obtain ⟨h1, h2, h3⟩ := rfindDown_some h
      exact absurd h2 (hno j (by have := markerAt_le h2; omega))
  · intro i hi hmax
    cases h : py_rfind g endMarker with
    | none =>
      unfold py_rfind at h
      have hiLe : i + endMarker.length ≤ g.length := markerAt_le hi
      exact absurd hi (rfindDown_none h i (by omega))
    | some j =>
      have hr := h
      unfold py_rfind at hr
      obtain ⟨h1, h2, h3⟩ := rfindDown_some hr
      have hji : j ≤ i := hmax j (by have := markerAt_le h2; omega) h2
      have hij : j = i := by
        rcases Nat.lt_or_ge j i with hlt | hge
        · have hiLe : i + endMarker.length ≤ g.length := markerAt_le hi
          exact absurd hi (h3 i hlt (by omega))
        · omega
      subst hij
      unfold extract_answer
      rw [h]

/-- Witness for claim C3: a generated text without the marker comes back
unmodified; one with the marker yields the stripped tail after it. -/
theorem extract_answer_spec_witness :
    extract_answer ['a', 'b', 'c'] = ['a', 'b', 'c'] ∧
    extract_answer ['x', '[', '/', 'I', 'N', 'S', 'T', ']', ' ', 'h', 'i', ' '] =
      ['h', 'i'] := by
  constructor
  · exact (extract_answer_spec ['a', 'b', 'c']).1 (by decide)
  · have h := (extract_answer_spec
      ['x', '[', '/', 'I', 'N', 'S', 'T', ']', ' ', 'h', 'i', ' ']).2 1 (by decide)
      (by decide)
    rw [h]
    rfl

/-! ### `check_cache_validity` from `esa_connector.py`

The relevant file-system state: existence of the two cache artifacts,
the modification time of the JSON artifact, and the current clock.
Times are modelled as rationals (Python float seconds). -/

structure CacheFS where
  cacheFileExists : Bool
  indexFileExists : Bool
  cacheMtime : ℚ
  now : ℚ

/-- `CACHE_EXPIRY_SECONDS = 24 * 60 * 60`. -/
def CACHE_EXPIRY_SECONDS : ℚ := 24 * 60 * 60

/-- `check_cache_validity()`: false if either artifact is missing,
otherwise whether the JSON artifact's age is below the expiry window. -/
def check_cache_validity (fs : CacheFS) : Bool :=
  if !fs.cacheFileExists || !fs.indexFileExists then false
  else decide (fs.now - fs.cacheMtime < CACHE_EXPIRY_SECONDS)

/-- Claim C5: `check_cache_validity` returns true iff both cache
artifacts exist and the chunk-metadata artifact's age is strictly below
24 hours; in particular it returns false whenever either artifact is
missing. -/
theorem check_cache_validity_spec (fs : CacheFS) :
    (check_cache_validity fs = true ↔
      fs.cacheFileExists = true ∧ fs.indexFileExists = true ∧
        fs.now - fs.cacheMtime < 24 * 60 * 60) ∧
    ((fs.cacheFileExists = false ∨ fs.indexFileExists = false) →
      check_cache_validity fs = false) := by
  constructor
  · cases hc : fs.cacheFileExists <;> cases hi : fs.indexFileExists <;>
      simp [check_cache_validity, hc, hi, CACHE_EXPIRY_SECONDS]
  · intro hmiss
    rcases hmiss with hm | hm <;> simp [check_cache_validity, hm]

/-! ### The fetch-and-index pipeline of `fetch_esa_documents`

The remote API, the cache artifacts and the embedding model are the
run's environment; the loop is fuelled because the source relies on the
remote paging state for termination.  Vectors are opaque to the code
(only produced and stored), so embedding vectors are integer lists. -/

/-- A value of one of the metadata dictionaries built by the fetcher. -/
inductive MVal
  | str : String → MVal
  | optS : Option String → MVal
  | optL : Option (List String) → MVal
deriving DecidableEq

/-- A metadata dictionary: ordered key/value pairs. -/
abbrev Metadata := List (String × MVal)

/-- A post record from the listing endpoint (`number`, `url`,
`full_name`, and the `get`-accessed `category` and `tags`). -/
structure Post where
  number : Nat
  url : String
  full_name : String
  category : Option String
  tags : Option (List String)
deriving DecidableEq

/-- The metadata dict attached to every chunk of a post. -/
def mkMetadata (p : Post) : Metadata :=
  [("source", .str p.url), ("title", .str p.full_name),
   ("category", .optS p.category), ("tags", .optL p.tags)]

/-- The sentinel chunk text of the empty-fetch path; `generate_answer`
compares against the same literal. -/
def dummyChunk : List Char := "esaから情報が取得されていません。".data

/-- The sentinel metadata dict: only the key source, value "No Data". -/
def dummyMeta : Metadata := [("source", .str "No Data")]

abbrev Docs := List (List Char × Metadata)

/-- Outcome of one listing-endpoint call.  `fail` covers every path that
breaks the loop before processing the page: a transport error, a
non-200 status, and a response-parsing failure. -/
inductive ListResult
  | ok : List Post → Option Nat → ListResult
  | fail : ListResult

/-- A FAISS `IndexFlatL2` as used here: a dimension and the stored
vectors in insertion order. -/
structure FIndex where
  dim : Nat
  vecs : List (List Int)
deriving DecidableEq

def IndexFlatL2 (d : Nat) : FIndex := ⟨d, []⟩

def FIndex.add (ix : FIndex) (vs : List (List Int)) : FIndex :=
  ⟨ix.dim, ix.vecs ++ vs⟩

/-- `embedding_model.encode(texts)`: one vector per text, in order. -/
def encode (embed : List Char → List Int) (texts : List (List Char)) : List (List Int) :=
  texts.map embed

/-- `.shape[1]` of the non-empty rectangular 2-d embedding array. -/
def shape1 (rows : List (List Int)) : Nat := (rows.headD []).length

/-- The inner `for post in posts` loop: fetch each post's detail
(`body_md`, default empty), clean, chunk with size 500, and append one
(chunk, metadata) pair per chunk.  A `none` detail models the exception
raised by `raise_for_status` or the transport; the Bool records that the
surrounding while loop must break. -/
def processPosts (detail : Nat → Option (List Char)) : List Post → Docs → Docs × Bool
  | [], acc => (acc, false)
  | p :: rest, acc =>
    match detail p.number with
    | none => (acc, true)
    | some body =>
      processPosts detail rest
        (acc ++ (splitChunks (clean_markdown body) 500).map (fun c => (c, mkMetadata p)))

/-- The `while True` pagination loop, starting at page 1: break on a
failed or empty listing, on an in-page exception, or on a null
`next_page`; otherwise continue with the next page. -/
def fetchLoop (lp : Nat → ListResult) (detail : Nat → Option (List Char)) :
    Nat → Nat → Docs → Docs
  | 0, _, acc => acc
  | fuel + 1, page, acc =>
    match lp page with
    | .fail => acc
    | .ok posts next =>
      if posts.isEmpty then acc
      else
        match processPosts detail posts acc with
        | (acc2, true) => acc2
        | (acc2, false) =>
          match next with
          | none => acc2
          | some _ => fetchLoop lp detail fuel (page + 1) acc2

/-- The environment one run of `fetch_esa_documents` interacts with:
the `check_cache_validity()` verdict, the `load_from_cache` outcome
(`none` models a raised exception), the two remote endpoints, and the
embedding model. -/
structure FetchEnv where
  cacheOk : Bool
  cacheLoad : Option (Docs × FIndex)
  listPage : Nat → ListResult
  detail : Nat → Option (List Char)
  embed : List Char → List Int

/-- The observable outcome of `fetch_esa_documents`: the returned
(documents, index) pair, and whether `save_to_cache` was called. -/
structure FetchOut where
  docs : Docs
  index : FIndex
  saved : Bool
deriving DecidableEq

/-- Steps 2-4 of `fetch_esa_documents` (the fetch/rebuild branch): run
the pagination loop; an empty result yields the unsaved sentinel pair,
otherwise embed all chunks, build the index and save to cache. -/
def viaApi (env : FetchEnv) (fuel : Nat) : FetchOut :=
  let all := fetchLoop env.listPage env.detail fuel 1 []
  if all = [] then
    let emb := encode env.embed [dummyChunk]
    ⟨[(dummyChunk, dummyMeta)], (IndexFlatL2 (shape1 emb)).add emb, false⟩
  else
    let embs := encode env.embed (all.map Prod.fst)
    ⟨all, (IndexFlatL2 (shape1 embs)).add embs, true⟩

/-- `fetch_esa_documents`: return a valid cache's contents if they load;
a load failure or an invalid cache falls through to the fetch/rebuild
branch. -/
def fetch_esa_documents (env : FetchEnv) (fuel : Nat) : FetchOut :=
  if env.cacheOk then
    match env.cacheLoad with
    | some (d, ix) => ⟨d, ix, false⟩
    | none => viaApi env fuel
  else viaApi env fuel

/-! ### Claims C1, C6, C7, C9 -/

/-- Claim C1: whenever the fetch loop runs and accumulates nothing, the
builder returns exactly one sentinel chunk with metadata source = "No
Data" and an index holding exactly the one embedding of the sentinel
text, and `save_to_cache` is not called. -/
theorem fetch_empty_sentinel (env : FetchEnv) (fuel : Nat)
    (hreach : env.cacheOk = false ∨ env.cacheLoad = none)
    (hempty : fetchLoop env.listPage env.detail fuel 1 [] = []) :
    fetch_esa_documents env fuel =
      ⟨[(dummyChunk, dummyMeta)],
        ⟨(env.embed dummyChunk).length, [env.embed dummyChunk]⟩, false⟩ := by
  have hvia : viaApi env fuel =
      ⟨[(dummyChunk, dummyMeta)],
        ⟨(env.embed dummyChunk).length, [env.embed dummyChunk]⟩, false⟩ := by
    simp only [viaApi]
    rw [hempty]
    simp [encode, shape1, IndexFlatL2, FIndex.add]
  rcases hreach with hr | hr
  · simp [fetch_esa_documents, hr, hvia]
  · cases hc : env.cacheOk
    · simp [fetch_esa_documents, hc, hvia]
    · simp [fetch_esa_documents, hc, hr, hvia]

def envC1 : FetchEnv :=
  ⟨false, none, fun _ => .ok [] none, fun _ => none, fun _ => [0, 1]⟩

/-- Witness for claim C1: a remote source that lists no posts. -/
theorem fetch_empty_sentinel_witness :
    fetch_esa_documents envC1 3 =
      ⟨[(dummyChunk, dummyMeta)], ⟨2, [[0, 1]]⟩, false⟩ :=
  fetch_empty_sentinel envC1 3 (Or.inl rfl) rfl

/-- Claim C6: a valid cache whose load raises is treated as a cache
miss — the run continues to the fetch/rebuild branch and its outcome is
identical to that of a run with an invalid cache; the failure never
escapes (the model is a total function). -/
theorem cache_load_failure_cache_miss (env : FetchEnv) (fuel : Nat)
    (h1 : env.cacheOk = true) (h2 : env.cacheLoad = none) :
    fetch_esa_documents env fuel = viaApi env fuel ∧
    fetch_esa_documents env fuel =
      fetch_esa_documents (⟨false, env.cacheLoad, env.listPage, env.detail, env.embed⟩ : FetchEnv) fuel := by
  have hmain : fetch_esa_documents env fuel = viaApi env fuel := by
    simp [fetch_esa_documents, h1, h2]
  refine ⟨hmain, ?_⟩
  rw [hmain]
  have hmiss : fetch_esa_documents (⟨false, env.cacheLoad, env.listPage, env.detail, env.embed⟩ : FetchEnv) fuel =
      viaApi (⟨false, env.cacheLoad, env.listPage, env.detail, env.embed⟩ : FetchEnv) fuel := by
    simp [fetch_esa_documents]
  rw [hmiss]
  rfl

def envC6 : FetchEnv :=
  ⟨true, none, fun _ => .ok [] none, fun _ => none, fun _ => [0]⟩

/-- Witness for claim C6: valid cache, failing load. -/
theorem cache_load_failure_cache_miss_witness :
    fetch_esa_documents envC6 1 = viaApi envC6 1 ∧
    fetch_esa_documents envC6 1 =
      fetch_esa_documents (⟨false, envC6.cacheLoad, envC6.listPage, envC6.detail, envC6.embed⟩ : FetchEnv) 1 :=
  cache_load_failure_cache_miss envC6 1 rfl rfl

/-- The chunk/metadata pairs a list of posts contributes when each
detail fetch succeeds. -/
def docsOfPosts (detail : Nat → Option (List Char)) (ps : List Post) : Docs :=
  (ps.map (fun p =>
    match detail p.number with
    | some body =>
      (splitChunks (clean_markdown body) 500).map (fun c => (c, mkMetadata p))
    | none => [])).flatten

theorem processPosts_fail (detail : Nat → Option (List Char)) (ps1 : List Post)
    (p : Post) (ps2 : List Post) (acc : Docs)
    (hok : ∀ q ∈ ps1, (detail q.number).isSome)
    (hfail : detail p.number = none) :
    processPosts detail (ps1 ++ p :: ps2) acc = (acc ++ docsOfPosts detail ps1, true) := by
  induction ps1 generalizing acc with
  | nil =>
    simp only [List.nil_append, processPosts, hfail]
    simp [docsOfPosts]
  | cons q rest ih =>
    have hq : (detail q.number).isSome := hok q (List.mem_cons_self q rest)
    obtain ⟨body, hbody⟩ := Option.isSome_iff_exists.mp hq
    simp only [List.cons_append, processPosts, hbody, List.append_eq]
    rw [ih _ (fun r hr => hok r (List.mem_cons_of_mem q hr))]
    simp [docsOfPosts, hbody, List.append_assoc]

/-- Claim C7: a failing per-document detail fetch is fatal to the whole
fetch operation — the loop stops at the failing document: chunks of the
page's earlier documents are kept, but the failing document is not
skipped over, and neither the rest of its page nor any later page is
fetched (the result is independent of them). -/
theorem detail_fetch_failure_fatal (lp : Nat → ListResult)
    (detail : Nat → Option (List Char)) (fuel page : Nat) (acc : Docs)
    (ps1 : List Post) (p : Post) (ps2 : List Post) (next : Option Nat)
    (hpage : lp page = .ok (ps1 ++ p :: ps2) next)
    (hok : ∀ q ∈ ps1, (detail q.number).isSome)
    (hfail : detail p.number = none) :
    fetchLoop lp detail (fuel + 1) page acc = acc ++ docsOfPosts detail ps1 := by
  rw [fetchLoop, hpage]
  simp [processPosts_fail detail ps1 p ps2 acc hok hfail]

def postC7a : Post := ⟨1, "u1", "t1", none, none⟩
def postC7b : Post := ⟨2, "u2", "t2", none, none⟩
def lpC7 : Nat → ListResult := fun _ => .ok [postC7a, postC7b] none
def detailC7 : Nat → Option (List Char) := fun n => if n = 1 then some ['h', 'i'] else none

/-- Witness for claim C7: the second post's detail fetch fails; the run
keeps only the first post's chunks. -/
theorem detail_fetch_failure_fatal_witness :
    fetchLoop lpC7 detailC7 1 1 [] = docsOfPosts detailC7 [postC7a] := by
  have h := detail_fetch_failure_fatal lpC7 detailC7 0 1 [] [postC7a] postC7b [] none
    rfl (by decide) rfl
  simpa using h

/-- Claim C9: every (documents, index) pair produced by the build path
keeps positional identity aligned — the stored vectors are exactly the
embeddings of the chunk texts in order (hence equal counts, and a
positional lookup at any index returned by a search refers to the chunk
whose vector matched). -/
theorem build_alignment (env : FetchEnv) (fuel : Nat)
    (hbuild : env.cacheOk = false ∨ env.cacheLoad = none) :
    (fetch_esa_documents env fuel).index.vecs =
      (fetch_esa_documents env fuel).docs.map (fun d => env.embed d.1) ∧
    (fetch_esa_documents env fuel).index.vecs.length =
      (fetch_esa_documents env fuel).docs.length := by
  have hvia : (viaApi env fuel).index.vecs =
      (viaApi env fuel).docs.map (fun d => env.embed d.1) := by
    simp only [viaApi]
    split
    · simp [encode, shape1, IndexFlatL2, FIndex.add]
    · simp [encode, shape1, IndexFlatL2, FIndex.add, List.map_map, Function.comp]
  have hmain : fetch_esa_documents env fuel = viaApi env fuel := by
    rcases hbuild with hr | hr
    · simp [fetch_esa_documents, hr]
    · cases hc : env.cacheOk
      · simp [fetch_esa_documents, hc]
      · simp [fetch_esa_documents, hc, hr]
  rw [hmain, hvia]
  simp

def postC9 : Post := ⟨7, "u9", "t9", some "cat", none⟩
def envC9 : FetchEnv :=
  ⟨false, none, fun pg => if pg = 1 then .ok [postC9] none else .fail,
   fun _ => some ['h', 'i'], fun t => [Int.ofNat t.length]⟩

/-- Witness for claim C9 on a one-post corpus. -/
theorem build_alignment_witness :
    (fetch_esa_documents envC9 2).index.vecs =
      (fetch_esa_documents envC9 2).docs.map (fun d => envC9.embed d.1) ∧
    (fetch_esa_documents envC9 2).index.vecs.length =
      (fetch_esa_documents envC9 2).docs.length :=
  build_alignment envC9 2 (Or.inl rfl)

/-! ### `generate_answer` (`main_fastapi.py`) -/

/-- One retrieved entry as handed to `generate_answer`; the distance
field is never read by it and is omitted. -/
structure RetrievedDoc where
  context : List Char
  source : String
deriving DecidableEq

/-- The fixed reply used when no relevant information is available. -/
def noInfoMsg : List Char := "esa wikiから関連情報を見つけられませんでした。".data

/-- The outcome of `generate_answer`: the answer text, plus whether the
generation pipeline was invoked. -/
structure GenOut where
  answer : List Char
  modelInvoked : Bool
deriving DecidableEq

/-- Python `sep.join(xs)`. -/
def joinSep (sep : List Char) : List (List Char) → List Char
  | [] => []
  | [x] => x
  | x :: xs => x ++ sep ++ joinSep sep xs

/-- The prompt f-string up to the interpolated context block. -/
def promptHead : List Char :=
  "\n[INST]\n以下はesa wikiからの参考情報です。この情報のみを使用して、次の質問に簡潔に日本語で答えてください。情報が不足している場合は、「情報が見つかりません。」と答えてください。\n参考情報:\n".data

/-- The prompt f-string between the context block and the question. -/
def promptMid : List Char := "\n\n質問: ".data

/-- The prompt f-string after the question. -/
def promptTail : List Char := "\n[/INST]\n\n回答:".data

/-- `generate_answer(question, relevant_docs)`, with the generation
pipeline abstracted as a function from the prompt to the raw generated
text.  The guard mirrors the source's short-circuit: an empty retrieved
list, or a first entry equal to the sentinel no-data text, yields the
fixed message without invoking the model. -/
def generate_answer (gen : List Char → List Char) (question : List Char)
    (relevant_docs : List RetrievedDoc) : GenOut :=
  match relevant_docs with
  | [] => ⟨noInfoMsg, false⟩
  | d :: rest =>
    if d.context = dummyChunk then ⟨noInfoMsg, false⟩
    else
      let contexts := joinSep ("\n---\n".data) ((d :: rest).map RetrievedDoc.context)
      let prompt := promptHead ++ contexts ++ promptMid ++ question ++ promptTail
      ⟨extract_answer (gen prompt), true⟩

/-- Claim C4: for every question and every retrieved sequence that is
empty or whose first (nearest) entry is the sentinel no-data text,
`generate_answer` returns the fixed "no relevant information found"
message and does not invoke the generation model. -/
theorem generate_answer_guard (gen : List Char → List Char) (q : List Char)
    (docs : List RetrievedDoc)
    (h : docs = [] ∨ ∃ d rest, docs = d :: rest ∧ d.context = dummyChunk) :
    generate_answer gen q docs = ⟨noInfoMsg, false⟩ := by
  rcases h with h | ⟨d, rest, hd, hc⟩
  · subst h
    rfl
  · subst hd
    simp [generate_answer, hc]

/-- Witness for claim C4 at the empty retrieval result. -/
theorem generate_answer_guard_witness :
    generate_answer (fun _ => []) [] [] = ⟨noInfoMsg, false⟩ :=
  generate_answer_guard (fun _ => []) [] [] (Or.inl rfl)
